import Mathlib

/-!
# Verification of the relationship-aware filter/query engine and frontend hooks

This development embeds the data model and operations of the SQL dashboard
repository in Lean 4 and proves the properties stated about them.

The backend engine (schema model, relationship graph, path resolver,
predicate builder, query executor) is modelled from the specification,
since only its documentation, test data and frontend callers are part of
the repository snapshot.  The frontend hooks and components
(`useFilters`, `useTableSelection.toggleTable`, `FilterBuilder.handleAddFilter`,
`Dashboard` rendering) are translated from their TypeScript sources.
-/

/-! ## Values and rows

SQL values with an explicit NULL.  Datetime values are carried as numbers
(their semantic category lives in the column's declared type). -/

inductive Value where
  | vStr (s : String)
  | vNum (n : Int)
  | vBool (b : Bool)
  | vNull
deriving DecidableEq, Repr

/-- Semantic category of a column's declared type (spec section 3). -/
inductive ColType where
  | str
  | num
  | boolean
  | datetime
deriving DecidableEq, Repr

/-- Modelled from the spec: a column of an extracted schema
(name, declared type, nullability flag, primary-key flag). -/
structure ColumnInfo where
  name : String
  type : ColType
  nullable : Bool
  primary_key : Bool
deriving DecidableEq, Repr

/-- Modelled from the spec: a table is a name plus an ordered column list. -/
structure TableInfo where
  name : String
  columns : List ColumnInfo
deriving DecidableEq, Repr

/-- Modelled from the spec: a foreign-key constraint, directed source → target,
with positionally corresponding column lists. -/
structure RelationshipInfo where
  from_table : String
  from_columns : List String
  to_table : String
  to_columns : List String
deriving DecidableEq, Repr

/-- Modelled from the spec: a schema is a set of tables plus a set of
foreign-key constraints. -/
structure DatabaseSchema where
  tables : List TableInfo
  relationships : List RelationshipInfo
deriving DecidableEq, Repr

/-- A row binds column names to values. -/
def Row : Type := List (String × Value)

instance : DecidableEq Row := by unfold Row; infer_instance

/-- Reading a column of a row; a column that is not present reads as NULL. -/
def Row.getCol (r : Row) (c : String) : Value :=
  match r.find? (fun p => p.1 == c) with
  | some p => p.2
  | none => Value.vNull

/-- The active dataset: each table name is bound to its list of rows. -/
def Database : Type := List (String × List Row)

/-- Rows of a table of the dataset (an unknown table has no rows). -/
def Database.getTable (db : Database) (t : String) : List Row :=
  match db.find? (fun p => p.1 == t) with
  | some p => p.2
  | none => []

/-! ## Filter operators (spec section 4.4) -/

inductive FilterOp where
  | eq
  | ne
  | gt
  | lt
  | gte
  | lte
  | contains
  | startswith
  | endswith
  | is_null
  | is_not_null
deriving DecidableEq, Repr

/-- Character-list prefix test used to model string matching. -/
def charsStartsWith : List Char → List Char → Bool
  | _, [] => true
  | [], _ :: _ => false
  | a :: as, b :: bs => a = b && charsStartsWith as bs

/-- Character-list substring test used to model the `contains` operator. -/
def charsContains : List Char → List Char → Bool
  | [], pat => pat.isEmpty
  | h :: t, pat => charsStartsWith (h :: t) pat || charsContains t pat

/-- Equality used by `eq` and join conditions: NULL never equals anything,
including NULL. -/
def valueEqNonNull : Value → Value → Bool
  | Value.vNull, _ => false
  | _, Value.vNull => false
  | v, w => decide (v = w)

/-- Modelled from the spec: evaluation of a filter operator on a column value
`cv` and a filter value `fv` (spec section 4.4 operator table).  NULL columns
match no comparison operator; `is_null` / `is_not_null` test nullability. -/
def matchOp (op : FilterOp) (cv fv : Value) : Bool :=
  match op with
  | FilterOp.eq => valueEqNonNull cv fv
  | FilterOp.ne =>
      match cv, fv with
      | Value.vNull, _ => false
      | _, Value.vNull => false
      | v, w => decide (v ≠ w)
  | FilterOp.gt =>
      match cv, fv with
      | Value.vNum a, Value.vNum b => decide (b < a)
      | _, _ => false
  | FilterOp.lt =>
      match cv, fv with
      | Value.vNum a, Value.vNum b => decide (a < b)
      | _, _ => false
  | FilterOp.gte =>
      match cv, fv with
      | Value.vNum a, Value.vNum b => decide (b ≤ a)
      | _, _ => false
  | FilterOp.lte =>
      match cv, fv with
      | Value.vNum a, Value.vNum b => decide (a ≤ b)
      | _, _ => false
  | FilterOp.contains =>
      match cv, fv with
      | Value.vStr s, Value.vStr p => charsContains s.toList p.toList
      | _, _ => false
  | FilterOp.startswith =>
      match cv, fv with
      | Value.vStr s, Value.vStr p => charsStartsWith s.toList p.toList
      | _, _ => false
  | FilterOp.endswith =>
      match cv, fv with
      | Value.vStr s, Value.vStr p => charsStartsWith s.toList.reverse p.toList.reverse
      | _, _ => false
  | FilterOp.is_null =>
      match cv with
      | Value.vNull => true
      | _ => false
  | FilterOp.is_not_null =>
      match cv with
      | Value.vNull => false
      | _ => true

/-- Modelled from the spec: the operator/column-type gate of section 4.4. -/
def allowedOp (t : ColType) (op : FilterOp) : Bool :=
  match op with
  | FilterOp.eq | FilterOp.ne | FilterOp.is_null | FilterOp.is_not_null => true
  | FilterOp.gt | FilterOp.lt | FilterOp.gte | FilterOp.lte =>
      t = ColType.num || t = ColType.datetime
  | FilterOp.contains | FilterOp.startswith | FilterOp.endswith => t = ColType.str

/-! ## Relationship graph (spec section 4.2)

An edge records the two tables it connects and the column pairs equated at
that hop.  A synthetic association edge additionally carries the association
table's name: `column_pairs` then links `from_table` to the association table
and `assoc_pairs` links the association table to `to_table`. -/

structure Edge where
  from_table : String
  to_table : String
  column_pairs : List (String × String)
  is_association : Bool
  assoc_table : String
  assoc_pairs : List (String × String)
deriving DecidableEq, Repr

/-- Forward edge of a foreign-key constraint (source → target). -/
def fkForwardEdge (r : RelationshipInfo) : Edge :=
  ⟨r.from_table, r.to_table, r.from_columns.zip r.to_columns, false, "", []⟩

/-- Reverse edge of a foreign-key constraint (target → source). -/
def fkReverseEdge (r : RelationshipInfo) : Edge :=
  ⟨r.to_table, r.from_table, r.to_columns.zip r.from_columns, false, "", []⟩

/-- Outgoing foreign keys of a table. -/
def tableFks (schema : DatabaseSchema) (t : TableInfo) : List RelationshipInfo :=
  schema.relationships.filter (fun r => r.from_table == t.name)

/-- Names of the columns constrained by any of the given foreign keys. -/
def fkColumnNames (fks : List RelationshipInfo) : List String :=
  (fks.map RelationshipInfo.from_columns).flatten

/-- Number of columns of `t` that are part of no outgoing foreign key
(a primary-key column inside the FK set contributes zero). -/
def non_fk_column_count (schema : DatabaseSchema) (t : TableInfo) : Nat :=
  (t.columns.filter
    (fun c => !(fkColumnNames (tableFks schema t)).contains c.name)).length

/-- Modelled from the spec: the association-table predicate of section 4.2:
at least two outgoing foreign keys and at most one non-FK column. -/
def is_association_table (schema : DatabaseSchema) (t : TableInfo) : Bool :=
  decide (2 ≤ (tableFks schema t).length) && decide (non_fk_column_count schema t ≤ 1)

/-- The directed synthetic edge pair induced by two foreign keys of an
association table, skipped when both reference the same table. -/
def assocEdgePair (tname : String) (f1 f2 : RelationshipInfo) : List Edge :=
  if f1.to_table == f2.to_table then []
  else
    [⟨f1.to_table, f2.to_table, f1.to_columns.zip f1.from_columns, true, tname,
        f2.from_columns.zip f2.to_columns⟩,
      ⟨f2.to_table, f1.to_table, f2.to_columns.zip f2.from_columns, true, tname,
        f1.from_columns.zip f1.to_columns⟩]

/-- All ordered pairs (earlier, later) of a list, in discovery order. -/
def fkPairs : List RelationshipInfo → List (RelationshipInfo × RelationshipInfo)
  | [] => []
  | f :: rest => rest.map (fun f2 => (f, f2)) ++ fkPairs rest

/-- Synthetic association edges contributed by one table. -/
def assocEdgesFor (schema : DatabaseSchema) (t : TableInfo) : List Edge :=
  if is_association_table schema t then
    (fkPairs (tableFks schema t)).flatMap (fun p => assocEdgePair t.name p.1 p.2)
  else []

/-- Modelled from the spec: relationship-graph construction of section 4.2:
one forward and one reverse edge per foreign-key constraint, then the
synthetic edge pairs of every association table. -/
def buildGraph (schema : DatabaseSchema) : List Edge :=
  schema.relationships.flatMap (fun r => [fkForwardEdge r, fkReverseEdge r]) ++
    schema.tables.flatMap (assocEdgesFor schema)


/-! ## Path resolver (spec section 4.3)

Breadth-first search over the relationship graph, one level per round.
The frontier carries, for every table discovered at the current level, the
path of edges that reached it; nodes already visited (or discovered earlier
in the same round) are not re-discovered, so discovery order follows the
order edges were added during graph construction. -/

/-- Edges leaving a table, in construction order. -/
def adjEdges (g : List Edge) (t : String) : List Edge :=
  g.filter (fun e => e.from_table == t)

/-- Expand one frontier entry through its outgoing edges, accumulating newly
discovered tables (skipping visited ones and same-round duplicates). -/
def expandNode (visited : List String) (p : List Edge) :
    List Edge → List (String × List Edge) → List (String × List Edge)
  | [], acc => acc
  | e :: es, acc =>
      if e.to_table ∈ visited ∨ acc.any (fun q => q.1 == e.to_table) then
        expandNode visited p es acc
      else
        expandNode visited p es (acc ++ [(e.to_table, p ++ [e])])

/-- Expand a whole BFS level. -/
def expandFrontier (g : List Edge) (visited : List String) :
    List (String × List Edge) → List (String × List Edge) → List (String × List Edge)
  | [], acc => acc
  | (n, p) :: fr, acc => expandFrontier g visited fr (expandNode visited p (adjEdges g n) acc)

/-- BFS main loop: scan the current level for the target, otherwise expand. -/
def bfsLoop (g : List Edge) (target : String) :
    Nat → List String → List (String × List Edge) → Option (List Edge)
  | 0, _, _ => none
  | fuel + 1, visited, frontier =>
      match frontier.find? (fun q => q.1 == target) with
      | some q => some q.2
      | none =>
          match expandFrontier g visited frontier [] with
          | [] => none
          | nx :: nxs =>
              bfsLoop g target fuel (visited ++ (nx :: nxs).map Prod.fst) (nx :: nxs)

/-- Modelled from the spec: `find_path(source, target)` of section 4.3:
the empty path when source equals target, otherwise breadth-first search;
`none` plays the role of `NotFound`. -/
def find_path (g : List Edge) (source target : String) : Option (List Edge) :=
  if source == target then some []
  else bfsLoop g target (g.length + 1) [source] [(source, [])]

/-! ## Predicate builder (spec section 4.4) -/

/-- Modelled from the spec: the predicate sum type of section 9
(comparison / existence-wrapped comparison / conjunction, plus the
tautology for the empty filter list).  An existence node stores the
discovered path reversed, ready to be walked starting from the target
table. -/
inductive QueryPred where
  | tautology : QueryPred
  | comp (column : String) (operator : FilterOp) (value : Value) : QueryPred
  | existsPath (revPath : List Edge) (ftable fcolumn : String)
      (operator : FilterOp) (value : Value) : QueryPred
  | conj (l r : QueryPred) : QueryPred
deriving DecidableEq, Repr

/-- Join condition of one hop: the paired columns agree (NULLs never join). -/
def joinCond (rf rt : Row) (pairs : List (String × String)) : Bool :=
  pairs.all (fun pr => valueEqNonNull (rf.getCol pr.1) (rt.getCol pr.2))

/-- Join condition of an edge: direct column pairs for a FK edge; for a
synthetic association edge, chain through a row of the association table. -/
def joinEdge (db : Database) (rf rt : Row) (e : Edge) : Bool :=
  if e.is_association then
    (db.getTable e.assoc_table).any (fun rm =>
      joinCond rf rm e.column_pairs && joinCond rm rt e.assoc_pairs)
  else joinCond rf rt e.column_pairs

/-- Correlated existence check: walk the reversed path from the target row,
requiring a witnessing row at every hop and the filter comparison at the
innermost table. -/
def existsChain (db : Database) (fcolumn : String) (op : FilterOp) (v : Value) :
    List Edge → Row → Bool
  | [], r => matchOp op (r.getCol fcolumn) v
  | e :: rest, r =>
      (db.getTable e.from_table).any (fun rf =>
        joinEdge db rf r e && existsChain db fcolumn op v rest rf)

/-- Truth of a predicate for one row of the target table. -/
def evalPred (db : Database) (r : Row) : QueryPred → Bool
  | QueryPred.tautology => true
  | QueryPred.comp c op v => matchOp op (r.getCol c) v
  | QueryPred.existsPath revPath _ fcolumn op v => existsChain db fcolumn op v revPath r
  | QueryPred.conj l rp => evalPred db r l && evalPred db r rp

/-- Modelled from the spec: the error taxonomy of section 7 relevant to
predicate building. -/
inductive BuildError where
  | filterValidation (table column : String) : BuildError
  | filterPath (from_table to_table : String) : BuildError
deriving DecidableEq, Repr

def findTable (schema : DatabaseSchema) (t : String) : Option TableInfo :=
  schema.tables.find? (fun tb => tb.name == t)

def findColumn (tb : TableInfo) (c : String) : Option ColumnInfo :=
  tb.columns.find? (fun col => col.name == c)

/-- Modelled from the spec: a filter of the flat filter list (section 3). -/
structure ColumnFilter where
  table : String
  column : String
  operator : FilterOp
  value : Value
deriving DecidableEq, Repr

/-- Validation of one filter: its table and column exist and the operator is
allowed for the column's declared type (spec section 4.4). -/
def validateFilter (schema : DatabaseSchema) (f : ColumnFilter) : Except BuildError Unit :=
  match findTable schema f.table with
  | none => Except.error (BuildError.filterValidation f.table f.column)
  | some tb =>
      match findColumn tb f.column with
      | none => Except.error (BuildError.filterValidation f.table f.column)
      | some col =>
          if allowedOp col.type f.operator then Except.ok ()
          else Except.error (BuildError.filterValidation f.table f.column)

def validateFilters (schema : DatabaseSchema) : List ColumnFilter → Except BuildError Unit
  | [] => Except.ok ()
  | f :: fs =>
      match validateFilter schema f with
      | Except.ok _ => validateFilters schema fs
      | Except.error e => Except.error e

/-- Validation before building: the target table exists, then every filter. -/
def validateQuery (schema : DatabaseSchema) (target : String)
    (filters : List ColumnFilter) : Except BuildError Unit :=
  match findTable schema target with
  | none => Except.error (BuildError.filterValidation target "")
  | some _ => validateFilters schema filters

/-- One filter's predicate: a direct comparison for a same-table filter,
otherwise a correlated existence check along the discovered path; an
unfindable path fails the filter with `FilterPathError`. -/
def buildOne (g : List Edge) (target : String) (f : ColumnFilter) : Except BuildError QueryPred :=
  if f.table == target then Except.ok (QueryPred.comp f.column f.operator f.value)
  else
    match find_path g f.table target with
    | none => Except.error (BuildError.filterPath f.table target)
    | some path =>
        Except.ok (QueryPred.existsPath path.reverse f.table f.column f.operator f.value)

/-- All per-filter predicates; the first failure aborts the whole build. -/
def buildAll (g : List Edge) (target : String) :
    List ColumnFilter → Except BuildError (List QueryPred)
  | [] => Except.ok []
  | f :: fs =>
      match buildOne g target f with
      | Except.error e => Except.error e
      | Except.ok p =>
          match buildAll g target fs with
          | Except.error e => Except.error e
          | Except.ok ps => Except.ok (p :: ps)

/-- Modelled from the spec: `build_predicate` of section 4.4: validate, build
every per-filter predicate, and conjoin them (empty list gives the
tautology). -/
def build_predicate (schema : DatabaseSchema) (target : String)
    (filters : List ColumnFilter) : Except BuildError QueryPred :=
  match validateQuery schema target filters with
  | Except.error e => Except.error e
  | Except.ok _ =>
      match buildAll (buildGraph schema) target filters with
      | Except.error e => Except.error e
      | Except.ok ps => Except.ok (ps.foldr QueryPred.conj QueryPred.tautology)

/-! ## Query executor (spec section 4.5) -/

/-- Optional single-column sort. -/
structure SortConfig where
  column : String
  descending : Bool
deriving DecidableEq, Repr

/-- A total comparison on values used for deterministic ordering. -/
def valueLe : Value → Value → Bool
  | Value.vNull, _ => true
  | _, Value.vNull => false
  | Value.vNum a, Value.vNum b => decide (a ≤ b)
  | Value.vNum _, _ => true
  | _, Value.vNum _ => false
  | Value.vStr a, Value.vStr b => !decide (b < a)
  | Value.vStr _, _ => true
  | _, Value.vStr _ => false
  | Value.vBool a, Value.vBool b => !a || b

/-- Name of the target table's primary-key column (empty if none). -/
def pkColumnName (schema : DatabaseSchema) (target : String) : String :=
  match findTable schema target with
  | none => ""
  | some tb =>
      match tb.columns.find? (fun c => c.primary_key) with
      | some c => c.name
      | none => ""

/-- Row ordering: the requested sort column first, ties broken by the target
table's primary key ascending (spec section 4.5). -/
def rowLe (schema : DatabaseSchema) (target : String) (sort : Option SortConfig)
    (r1 r2 : Row) : Bool :=
  let pk := pkColumnName schema target
  match sort with
  | none => valueLe (r1.getCol pk) (r2.getCol pk)
  | some sc =>
      let v1 := r1.getCol sc.column
      let v2 := r2.getCol sc.column
      if v1 = v2 then valueLe (r1.getCol pk) (r2.getCol pk)
      else if sc.descending then valueLe v2 v1 else valueLe v1 v2

/-- Insertion into a sorted list. -/
def insertLe {α : Type} (le : α → α → Bool) (x : α) : List α → List α
  | [] => [x]
  | y :: ys => if le x y then x :: y :: ys else y :: insertLe le x ys

/-- Insertion sort (only its permutation property matters below). -/
def sortByLe {α : Type} (le : α → α → Bool) : List α → List α
  | [] => []
  | x :: xs => insertLe le x (sortByLe le xs)

/-- Shape of a query response (spec section 6). -/
structure QueryResult where
  rows : List Row
  total : Nat
  offset : Nat
  limit : Nat
deriving DecidableEq

/-- Modelled from the spec: `execute` of section 4.5: build the predicate,
filter the target table, sort deterministically, page with offset and the
capped limit, and report the full filtered count as `total`. -/
def execute (schema : DatabaseSchema) (db : Database) (target : String)
    (filters : List ColumnFilter) (sort : Option SortConfig)
    (offset limit maxLimit : Nat) : Except BuildError QueryResult :=
  match build_predicate schema target filters with
  | Except.error e => Except.error e
  | Except.ok p =>
      let lim := min limit maxLimit
      let matched := (db.getTable target).filter (fun r => evalPred db r p)
      let sorted := sortByLe (rowLe schema target sort) matched
      Except.ok ⟨(sorted.drop offset).take lim, matched.length, offset, lim⟩

/-! ## Frontend models (translated from the TypeScript sources) -/

/-- JSON values, for modelling `JSON.parse` results in `useFilters`. -/
inductive Json where
  | null : Json
  | bool (b : Bool) : Json
  | num (n : Int) : Json
  | str (s : String) : Json
  | arr (elems : List Json) : Json
  | obj (fields : List (String × Json)) : Json

/-- The `filters` URL parameter as seen by `useFilters`
(`src/frontend/src/hooks/useFilters.ts`): `none` when the parameter is
absent, `some none` when `JSON.parse`/`decodeURIComponent` throws, and
`some (some j)` when parsing yields the JSON value `j`. -/
def useFiltersParse (filtersParam : Option (Option Json)) : List Json :=
  match filtersParam with
  | none => []
  | some none => []
  | some (some (Json.arr elems)) => elems
  | some (some _) => []

/-- Form fields read by `FilterBuilder.handleAddFilter`; empty strings model
JavaScript falsy form values. -/
structure FormInput where
  table : String
  column : String
  operator : String
  value : String
deriving DecidableEq, Repr

/-- The frontend `ColumnFilter` shape (`src/frontend/src/types.ts`), with the
string-typed operator and value the form submits. -/
structure FrontFilter where
  table : String
  column : String
  operator : String
  value : String
deriving DecidableEq, Repr

/-- `handleAddFilter` of `FilterBuilder`: reject when table, column or
operator is falsy; blank the value for the null-check operators; otherwise
pass the typed value through. -/
def handleAddFilter (f : FormInput) : Option FrontFilter :=
  if f.table = "" ∨ f.column = "" ∨ f.operator = "" then none
  else
    some ⟨f.table, f.column, f.operator,
      if f.operator = "is_null" ∨ f.operator = "is_not_null" then "" else f.value⟩

/-- `String.prototype.split(sep)` on character lists (an empty input yields
one empty piece, as in JavaScript). -/
def splitSep (sep : Char) : List Char → List (List Char)
  | [] => [[]]
  | c :: cs =>
      match splitSep sep cs with
      | [] => []
      | p :: ps => if c = sep then [] :: p :: ps else (c :: p) :: ps

/-- `Array.prototype.join(sep)` on character lists. -/
def joinSep (sep : Char) : List (List Char) → List Char
  | [] => []
  | [x] => x
  | x :: xs => x ++ sep :: joinSep sep xs

/-- JavaScript `Set` construction: first occurrences, in order. -/
def setDedup {α : Type} [DecidableEq α] : List α → List α
  | [] => []
  | x :: xs => x :: (setDedup xs).filter (fun y => y ≠ x)

/-- Lexicographic character-list order, modelling JavaScript's default
string sort. -/
def lexLe : List Char → List Char → Bool
  | [], _ => true
  | _ :: _, [] => false
  | c :: cs, d :: ds => if c = d then lexLe cs ds else decide (c < d)

/-- `useTableSelection`'s parse of the `tables` URL parameter:
`new Set(tablesParam.split(',').filter(Boolean))`. -/
def visibleTables (tablesParam : Option (List Char)) : List (List Char) :=
  match tablesParam with
  | none => []
  | some s => setDedup ((splitSep ',' s).filter (fun x => !x.isEmpty))

/-- `setVisibleTables`: delete the parameter for an empty set, else store the
sorted comma-joined list. -/
def serializeTables (tables : List (List Char)) : Option (List Char) :=
  match tables with
  | [] => none
  | _ => some (joinSep ',' (sortByLe lexLe tables))

/-- `toggleTable` of `useTableSelection`: remove the name if visible, add it
otherwise, and write the result back to the URL. -/
def toggleTable (tablesParam : Option (List Char)) (name : List Char) :
    Option (List Char) :=
  let cur := visibleTables tablesParam
  let next := if name ∈ cur then cur.erase name else cur ++ [name]
  serializeTables next

/-- Render outcomes of the `Dashboard` component. -/
inductive RenderState where
  | loading
  | errorView
  | emptyNoTables
  | mainView
deriving DecidableEq, Repr

/-- The render decision of `Dashboard`
(`src/frontend/src/components/Dashboard.tsx`, lines 68-97): loading first,
then a failed schema fetch, then the `"No tables found"` empty state for a
missing or zero-table schema, else the main dashboard. -/
def dashboardRender (schemaLoading schemaError : Bool)
    (schema : Option DatabaseSchema) : RenderState :=
  if schemaLoading then RenderState.loading
  else if schemaError then RenderState.errorView
  else
    match schema with
    | none => RenderState.emptyNoTables
    | some s =>
        if s.tables.length = 0 then RenderState.emptyNoTables
        else RenderState.mainView

/-! ## Concrete scenarios used by the explicit claims -/

def usersTable : TableInfo :=
  ⟨"users", [⟨"id", ColType.num, false, true⟩, ⟨"name", ColType.str, false, false⟩]⟩

def ordersTable : TableInfo :=
  ⟨"orders", [⟨"id", ColType.num, false, true⟩, ⟨"user_id", ColType.num, false, false⟩,
    ⟨"status", ColType.str, false, false⟩]⟩

def logsTable : TableInfo :=
  ⟨"logs", [⟨"id", ColType.num, false, true⟩, ⟨"message", ColType.str, true, false⟩]⟩

def ordersFk : RelationshipInfo := ⟨"orders", ["user_id"], "users", ["id"]⟩

/-- The end-to-end scenario schema: `users(id,name)`,
`orders(id,user_id→users.id,status)`. -/
def scenarioSchema : DatabaseSchema := ⟨[usersTable, ordersTable], [ordersFk]⟩

/-- The scenario schema extended with a disconnected `logs` table. -/
def disconnectedSchema : DatabaseSchema :=
  ⟨[usersTable, ordersTable, logsTable], [ordersFk]⟩

def user1 : Row := [("id", Value.vNum 1), ("name", Value.vStr "Alice")]
def user2 : Row := [("id", Value.vNum 2), ("name", Value.vStr "Bob")]
def order1 : Row :=
  [("id", Value.vNum 1), ("user_id", Value.vNum 1), ("status", Value.vStr "shipped")]
def order2 : Row :=
  [("id", Value.vNum 2), ("user_id", Value.vNum 1), ("status", Value.vStr "pending")]
def order3 : Row :=
  [("id", Value.vNum 3), ("user_id", Value.vNum 2), ("status", Value.vStr "shipped")]

/-- User 1 has a shipped and a pending order; user 2 has one shipped order. -/
def scenarioDb : Database :=
  [("users", [user1, user2]), ("orders", [order1, order2, order3])]

def shippedFilter : ColumnFilter := ⟨"orders", "status", FilterOp.eq, Value.vStr "shipped"⟩

/-- Association-table scenario: `students`, `courses`, and the pure junction
table `enrollments(student_id→students.id, course_id→courses.id)`. -/
def studentsTable : TableInfo :=
  ⟨"students", [⟨"id", ColType.num, false, true⟩, ⟨"name", ColType.str, false, false⟩]⟩

def coursesTable : TableInfo :=
  ⟨"courses", [⟨"id", ColType.num, false, true⟩, ⟨"name", ColType.str, false, false⟩]⟩

def enrollmentsTable : TableInfo :=
  ⟨"enrollments", [⟨"student_id", ColType.num, false, true⟩,
    ⟨"course_id", ColType.num, false, true⟩]⟩

def enrollStudentFk : RelationshipInfo :=
  ⟨"enrollments", ["student_id"], "students", ["id"]⟩

def enrollCourseFk : RelationshipInfo :=
  ⟨"enrollments", ["course_id"], "courses", ["id"]⟩

def enrollmentSchema : DatabaseSchema :=
  ⟨[studentsTable, coursesTable, enrollmentsTable], [enrollStudentFk, enrollCourseFk]⟩

/-- A single-table schema with 120 rows for the pagination contract. -/
def itemsTable : TableInfo := ⟨"items", [⟨"id", ColType.num, false, true⟩]⟩

def itemsSchema : DatabaseSchema := ⟨[itemsTable], []⟩

def itemsDb : Database :=
  [("items", (List.range 120).map (fun i => [("id", Value.vNum i)]))]


/-! ## Walks and distances (specification layer for the path resolver) -/

/-- A walk from `src` to an endpoint: consecutive edges of the graph chain
table to table. -/
def IsWalk (g : List Edge) (src : String) : List Edge → String → Prop
  | [], t => src = t
  | e :: p, t => e ∈ g ∧ e.from_table = src ∧ IsWalk g e.to_table p t

/-- The tables visited by a walk, in order (the source first). -/
def pathNodes (src : String) (p : List Edge) : List String :=
  src :: p.map Edge.to_table

/-- Some walk of length `n` connects `src` to `t`. -/
def WalkLen (g : List Edge) (src t : String) (n : Nat) : Prop :=
  ∃ p, IsWalk g src p t ∧ p.length = n

/-- `k` is the BFS distance: attained by a walk and minimal. -/
def IsDist (g : List Edge) (src t : String) (k : Nat) : Prop :=
  WalkLen g src t k ∧ ∀ j, WalkLen g src t j → k ≤ j

/-- The BFS level invariant: every frontier entry carries a duplicate-free
walk of length `k` whose nodes all lie at their discovery distance, the
visited set is exactly the tables at distance at most `k`, and the frontier
tables are exactly those at distance `k`. -/
structure BfsInv (g : List Edge) (src : String) (k : Nat) (visited : List String)
    (frontier : List (String × List Edge)) : Prop where
  fwalk : ∀ q ∈ frontier, IsWalk g src q.2 q.1 ∧ q.2.length = k
  fnodup : ∀ q ∈ frontier, (pathNodes src q.2).Nodup
  fmemdist : ∀ q ∈ frontier, ∀ z ∈ pathNodes src q.2, ∃ i ≤ k, IsDist g src z i
  vis : ∀ n, n ∈ visited ↔ ∃ j ≤ k, IsDist g src n j
  fnodes : ∀ n, (∃ p, (n, p) ∈ frontier) ↔ IsDist g src n k

/-! ## Theorems -/

/-- C6: NULL semantics of filter operators: a NULL column matches neither `eq`
nor `ne` for any comparison value (NULL never equals anything, including NULL),
while `is_null` matches exactly the rows whose column is NULL. -/
theorem null_semantics (r : Row) (c : String) (v : Value)
    (hnull : r.getCol c = Value.vNull) :
    matchOp FilterOp.eq (r.getCol c) v = false ∧
    matchOp FilterOp.ne (r.getCol c) v = false ∧
    matchOp FilterOp.is_null (r.getCol c) v = true ∧
    ∀ r' : Row, matchOp FilterOp.is_null (Row.getCol r' c) v = true →
      Row.getCol r' c = Value.vNull := by
  refine ⟨?_, ?_, ?_, ?_⟩
  · rw [hnull]; cases v <;> rfl
  · rw [hnull]; cases v <;> rfl
  · rw [hnull]; rfl
  · intro r' h
    cases hv : Row.getCol r' c <;> simp [matchOp, hv] at h ⊢

/-- Concrete instance of `null_semantics`: a row whose `status` column is NULL
is rejected by `eq "shipped"` and by `ne "shipped"`, and accepted by `is_null`. -/
theorem null_semantics_witness :
    matchOp FilterOp.eq (Row.getCol [("status", Value.vNull)] "status")
      (Value.vStr "shipped") = false ∧
    matchOp FilterOp.ne (Row.getCol [("status", Value.vNull)] "status")
      (Value.vStr "shipped") = false ∧
    matchOp FilterOp.is_null (Row.getCol [("status", Value.vNull)] "status")
      (Value.vStr "shipped") = true ∧
    ∀ r' : Row, matchOp FilterOp.is_null (Row.getCol r' "status")
      (Value.vStr "shipped") = true → Row.getCol r' "status" = Value.vNull :=
  null_semantics [("status", Value.vNull)] "status" (Value.vStr "shipped") (by rfl)

theorem mem_fkPairs_of_mem {l : List RelationshipInfo} {f1 f2 : RelationshipInfo}
    (h1 : f1 ∈ l) (h2 : f2 ∈ l) (hne : f1 ≠ f2) :
    (f1, f2) ∈ fkPairs l ∨ (f2, f1) ∈ fkPairs l := by
  induction l with
  | nil => cases h1
  | cons h rest ih =>
    rcases List.mem_cons.mp h1 with rfl | m1
    · rcases List.mem_cons.mp h2 with rfl | m2
      · exact absurd rfl hne
      · exact Or.inl (by
          simp only [fkPairs, List.mem_append, List.mem_map]
          exact Or.inl ⟨f2, m2, rfl⟩)
    · rcases List.mem_cons.mp h2 with rfl | m2
      · exact Or.inr (by
          simp only [fkPairs, List.mem_append, List.mem_map]
          exact Or.inl ⟨f1, m1, rfl⟩)
      · rcases ih m1 m2 with hp | hp
        · exact Or.inl (by simp only [fkPairs, List.mem_append]; exact Or.inr hp)
        · exact Or.inr (by simp only [fkPairs, List.mem_append]; exact Or.inr hp)

theorem assocEdgePair_mem_left (tname : String) (f1 f2 : RelationshipInfo)
    (hdiff : f1.to_table ≠ f2.to_table) :
    ∃ e ∈ assocEdgePair tname f1 f2, e.is_association = true ∧ e.assoc_table = tname ∧
      e.from_table = f1.to_table ∧ e.to_table = f2.to_table := by
  refine ⟨⟨f1.to_table, f2.to_table, f1.to_columns.zip f1.from_columns, true, tname,
      f2.from_columns.zip f2.to_columns⟩, ?_, rfl, rfl, rfl, rfl⟩
  simp [assocEdgePair, hdiff]

theorem assocEdgePair_mem_right (tname : String) (f1 f2 : RelationshipInfo)
    (hdiff : f1.to_table ≠ f2.to_table) :
    ∃ e ∈ assocEdgePair tname f1 f2, e.is_association = true ∧ e.assoc_table = tname ∧
      e.from_table = f2.to_table ∧ e.to_table = f1.to_table := by
  refine ⟨⟨f2.to_table, f1.to_table, f2.to_columns.zip f2.from_columns, true, tname,
      f1.from_columns.zip f1.to_columns⟩, ?_, rfl, rfl, rfl, rfl⟩
  simp [assocEdgePair, hdiff]

theorem assoc_edge_exists (schema : DatabaseSchema) (t : TableInfo)
    (f1 f2 : RelationshipInfo) (ht : t ∈ schema.tables)
    (hassoc : is_association_table schema t = true)
    (hf1 : f1 ∈ tableFks schema t) (hf2 : f2 ∈ tableFks schema t)
    (hne : f1 ≠ f2) (hdiff : f1.to_table ≠ f2.to_table) :
    ∃ e ∈ buildGraph schema, e.is_association = true ∧ e.assoc_table = t.name ∧
      e.from_table = f1.to_table ∧ e.to_table = f2.to_table := by
  have key : ∃ e ∈ assocEdgesFor schema t, e.is_association = true ∧
      e.assoc_table = t.name ∧ e.from_table = f1.to_table ∧ e.to_table = f2.to_table := by
    rcases mem_fkPairs_of_mem hf1 hf2 hne with hp | hp
    · obtain ⟨e, he, hprop⟩ := assocEdgePair_mem_left t.name f1 f2 hdiff
      refine ⟨e, ?_, hprop⟩
      simp only [assocEdgesFor, hassoc, if_true, List.mem_flatMap]
      exact ⟨(f1, f2), hp, he⟩
    · obtain ⟨e, he, hprop⟩ := assocEdgePair_mem_right t.name f2 f1 (Ne.symm hdiff)
      refine ⟨e, ?_, hprop⟩
      simp only [assocEdgesFor, hassoc, if_true, List.mem_flatMap]
      exact ⟨(f2, f1), hp, he⟩
  obtain ⟨e, he, hprop⟩ := key
  refine ⟨e, ?_, hprop⟩
  simp only [buildGraph, List.mem_append, List.mem_flatMap]
  exact Or.inr ⟨t, ht, he⟩

theorem assoc_edge_only_from_assoc_table (schema : DatabaseSchema) (e : Edge)
    (he : e ∈ buildGraph schema) (hassoc : e.is_association = true) :
    ∃ t ∈ schema.tables, is_association_table schema t = true ∧
      e.assoc_table = t.name := by
  simp only [buildGraph, List.mem_append, List.mem_flatMap] at he
  rcases he with ⟨r, _, hmem⟩ | ⟨t, ht, hmem⟩
  · simp only [List.mem_cons, List.mem_singleton] at hmem
    rcases hmem with rfl | rfl | h
    · simp [fkForwardEdge] at hassoc
    · simp [fkReverseEdge] at hassoc
    · cases h
  · refine ⟨t, ht, ?_, ?_⟩
    · by_contra hfalse
      simp only [assocEdgesFor, Bool.not_eq_true] at hmem
      rw [Bool.not_eq_true] at hfalse
      rw [hfalse] at hmem
      simp at hmem
    · have htrue : is_association_table schema t = true := by
        by_contra hfalse
        rw [Bool.not_eq_true] at hfalse
        simp only [assocEdgesFor, hfalse] at hmem
        simp at hmem
      simp only [assocEdgesFor, htrue, if_true, List.mem_flatMap] at hmem
      obtain ⟨p, _, hpmem⟩ := hmem
      simp only [assocEdgePair] at hpmem
      by_cases hsame : p.1.to_table == p.2.to_table
      · rw [if_pos hsame] at hpmem; cases hpmem
      · rw [if_neg hsame] at hpmem
        simp only [List.mem_cons, List.mem_singleton] at hpmem
        rcases hpmem with rfl | rfl | h
        · rfl
        · rfl
        · cases h

theorem buildOne_error_shape {g : List Edge} {target : String} {f : ColumnFilter}
    {e : BuildError} (h : buildOne g target f = Except.error e) :
    e = BuildError.filterPath f.table target := by
  unfold buildOne at h
  by_cases hb : (f.table == target) = true
  · rw [if_pos hb] at h; cases h
  · rw [if_neg hb] at h
    cases hp : find_path g f.table target with
    | none => rw [hp] at h; cases h; rfl
    | some path => rw [hp] at h; cases h

theorem buildOne_fails {g : List Edge} {target : String} {f : ColumnFilter}
    (hne : f.table ≠ target) (hpath : find_path g f.table target = none) :
    buildOne g target f = Except.error (BuildError.filterPath f.table target) := by
  unfold buildOne
  rw [if_neg (by simpa using hne), hpath]

theorem buildAll_filterPath {g : List Edge} {target : String} :
    ∀ (filters : List ColumnFilter) (f : ColumnFilter), f ∈ filters →
      f.table ≠ target → find_path g f.table target = none →
      ∃ t1, buildAll g target filters = Except.error (BuildError.filterPath t1 target) := by
  intro filters
  induction filters with
  | nil => intro f hf; cases hf
  | cons f0 fs ih =>
    intro f hf hne hpath
    cases h0 : buildOne g target f0 with
    | error e =>
      refine ⟨f0.table, ?_⟩
      have := buildOne_error_shape h0
      simp only [buildAll, h0, this]
    | ok p =>
      rcases List.mem_cons.mp hf with rfl | hmem
      · rw [buildOne_fails hne hpath] at h0; cases h0
      · obtain ⟨t1, ht1⟩ := ih f hmem hne hpath
        exact ⟨t1, by simp only [buildAll, h0, ht1]⟩

/-- C4: `build_predicate` is all-or-nothing with respect to path failures:
whenever some filter of a validated request references a table other than the
target with no relationship path to it, the whole call fails with a
`FilterPathError` — no predicate is produced and no filter is silently
dropped. -/
theorem build_predicate_all_or_nothing (schema : DatabaseSchema) (target : String)
    (filters : List ColumnFilter) (f : ColumnFilter)
    (hval : validateQuery schema target filters = Except.ok ())
    (hf : f ∈ filters) (hne : f.table ≠ target)
    (hpath : find_path (buildGraph schema) f.table target = none) :
    ∃ t1, build_predicate schema target filters =
      Except.error (BuildError.filterPath t1 target) := by
  obtain ⟨t1, ht1⟩ := buildAll_filterPath filters f hf hne hpath
  exact ⟨t1, by simp only [build_predicate, hval, ht1]⟩

/-- Concrete instance of `build_predicate_all_or_nothing`: with the schema
`users`/`orders` plus a disconnected `logs` table, a filter on `logs`
against target `users` fails the whole build with `FilterPathError`. -/
theorem build_predicate_all_or_nothing_witness :
    ∃ t1, build_predicate disconnectedSchema "users"
        [⟨"logs", "message", FilterOp.eq, Value.vStr "x"⟩] =
      Except.error (BuildError.filterPath t1 "users") :=
  build_predicate_all_or_nothing disconnectedSchema "users"
    [⟨"logs", "message", FilterOp.eq, Value.vStr "x"⟩]
    ⟨"logs", "message", FilterOp.eq, Value.vStr "x"⟩
    (by rfl) (by simp) (by decide) (by rfl)

/-- C1: end-to-end scenario: with `users(id,name)` and
`orders(id,user_id→users.id,status)`, where user 1 has a shipped and a
pending order and user 2 one shipped order, querying `users` with the single
cross-table filter `orders.status eq "shipped"` returns exactly users 1 and 2,
each exactly once: the existence check never duplicates a target row. -/
theorem cross_table_filter_no_duplicates :
    execute scenarioSchema scenarioDb "users" [shippedFilter] none 0 50 500 =
      Except.ok ⟨[user1, user2], 2, 0, 50⟩ ∧ user1 ≠ user2 := by
  exact ⟨rfl, by decide⟩

/-- C3: association tables are classified by the predicate
"at least two foreign keys and at most one non-FK column", and every such
table contributes a synthetic `is_association` edge pair, one in each
direction, between every unordered pair of distinct tables referenced by its
foreign keys; conversely, every `is_association` edge of the graph comes from
a table satisfying the predicate. -/
theorem association_table_classification_and_edges (schema : DatabaseSchema)
    (t : TableInfo) (f1 f2 : RelationshipInfo) (ht : t ∈ schema.tables)
    (hassoc : is_association_table schema t = true)
    (hf1 : f1 ∈ tableFks schema t) (hf2 : f2 ∈ tableFks schema t)
    (hne : f1 ≠ f2) (hdiff : f1.to_table ≠ f2.to_table) :
    (∀ t' : TableInfo, is_association_table schema t' = true ↔
      2 ≤ (tableFks schema t').length ∧ non_fk_column_count schema t' ≤ 1) ∧
    (∃ e ∈ buildGraph schema, e.is_association = true ∧ e.assoc_table = t.name ∧
      e.from_table = f1.to_table ∧ e.to_table = f2.to_table) ∧
    (∃ e ∈ buildGraph schema, e.is_association = true ∧ e.assoc_table = t.name ∧
      e.from_table = f2.to_table ∧ e.to_table = f1.to_table) ∧
    ∀ e ∈ buildGraph schema, e.is_association = true →
      ∃ t' ∈ schema.tables, is_association_table schema t' = true ∧
        e.assoc_table = t'.name := by
  refine ⟨?_, ?_, ?_, ?_⟩
  · intro t'
    simp [is_association_table]
  · exact assoc_edge_exists schema t f1 f2 ht hassoc hf1 hf2 hne hdiff
  · exact assoc_edge_exists schema t f2 f1 ht hassoc hf2 hf1 (Ne.symm hne) (Ne.symm hdiff)
  · intro e he hea
    exact assoc_edge_only_from_assoc_table schema e he hea

/-- Concrete instance of `association_table_classification_and_edges` on the
`students`/`courses`/`enrollments` schema. -/
theorem association_table_witness :
    (∀ t' : TableInfo, is_association_table enrollmentSchema t' = true ↔
      2 ≤ (tableFks enrollmentSchema t').length ∧
        non_fk_column_count enrollmentSchema t' ≤ 1) ∧
    (∃ e ∈ buildGraph enrollmentSchema, e.is_association = true ∧
      e.assoc_table = enrollmentsTable.name ∧
      e.from_table = enrollStudentFk.to_table ∧
      e.to_table = enrollCourseFk.to_table) ∧
    (∃ e ∈ buildGraph enrollmentSchema, e.is_association = true ∧
      e.assoc_table = enrollmentsTable.name ∧
      e.from_table = enrollCourseFk.to_table ∧
      e.to_table = enrollStudentFk.to_table) ∧
    ∀ e ∈ buildGraph enrollmentSchema, e.is_association = true →
      ∃ t' ∈ enrollmentSchema.tables, is_association_table enrollmentSchema t' = true ∧
        e.assoc_table = t'.name :=
  association_table_classification_and_edges enrollmentSchema enrollmentsTable
    enrollStudentFk enrollCourseFk (by decide) (by decide) (by decide) (by decide)
    (by decide) (by decide)

/-- C8: the `useFilters` hook is total over the URL state: an absent
`filters` parameter, invalid JSON, and JSON that is not an array each yield
exactly the empty filter list; only a JSON array is passed through. -/
theorem useFilters_total_over_url_state (j : Json)
    (hne : ∀ elems, j ≠ Json.arr elems) :
    useFiltersParse none = [] ∧
    useFiltersParse (some none) = [] ∧
    useFiltersParse (some (some j)) = [] ∧
    ∀ elems, useFiltersParse (some (some (Json.arr elems))) = elems := by
  refine ⟨rfl, rfl, ?_, fun _ => rfl⟩
  cases j with
  | arr elems => exact absurd rfl (hne elems)
  | null => rfl
  | bool b => rfl
  | num n => rfl
  | str s => rfl
  | obj fields => rfl

/-- Concrete instance of `useFilters_total_over_url_state` at the non-array
JSON value `"x"`. -/
theorem useFilters_total_witness :
    useFiltersParse none = [] ∧
    useFiltersParse (some none) = [] ∧
    useFiltersParse (some (some (Json.str "x"))) = [] ∧
    ∀ elems, useFiltersParse (some (some (Json.arr elems))) = elems :=
  useFilters_total_over_url_state (Json.str "x")
    (fun _ h => Json.noConfusion h)

/-- C10: every filter actually submitted by the `FilterBuilder` form with a
null-check operator carries the empty string as its value, whatever was
typed, while any other operator passes the typed value through unchanged. -/
theorem handleAddFilter_value_discipline (f : FormInput) (flt : FrontFilter)
    (h : handleAddFilter f = some flt) :
    flt.table = f.table ∧ flt.column = f.column ∧ flt.operator = f.operator ∧
    ((f.operator = "is_null" ∨ f.operator = "is_not_null") → flt.value = "") ∧
    (f.operator ≠ "is_null" → f.operator ≠ "is_not_null" → flt.value = f.value) := by
  unfold handleAddFilter at h
  by_cases hempty : f.table = "" ∨ f.column = "" ∨ f.operator = ""
  · rw [if_pos hempty] at h; cases h
  · rw [if_neg hempty] at h
    cases h
    refine ⟨rfl, rfl, rfl, ?_, ?_⟩
    · intro hnull
      simp [if_pos hnull]
    · intro h1 h2
      simp [h1, h2]

/-- Concrete instance of `handleAddFilter_value_discipline`: a submitted
`is_null` filter carries the empty value even though `"typed"` was typed. -/
theorem handleAddFilter_value_witness :
    (FrontFilter.mk "orders" "status" "is_null" "").table = "orders" ∧
    (FrontFilter.mk "orders" "status" "is_null" "").column = "status" ∧
    (FrontFilter.mk "orders" "status" "is_null" "").operator = "is_null" ∧
    (("is_null" = "is_null" ∨ ("is_null" : String) = "is_not_null") →
      (FrontFilter.mk "orders" "status" "is_null" "").value = "") ∧
    (("is_null" : String) ≠ "is_null" → ("is_null" : String) ≠ "is_not_null" →
      (FrontFilter.mk "orders" "status" "is_null" "").value = "typed") :=
  handleAddFilter_value_discipline ⟨"orders", "status", "is_null", "typed"⟩
    ⟨"orders", "status", "is_null", ""⟩ (by rfl)

/-- C7 counterexample: a schema that loads successfully with zero tables is
rendered by `Dashboard` as the `"No tables found"` empty state, not as a
blocking error view. -/
theorem dashboard_zero_tables_counterexample :
    dashboardRender false false (some ⟨[], []⟩) = RenderState.emptyNoTables ∧
    dashboardRender false false (some ⟨[], []⟩) ≠ RenderState.errorView := by
  exact ⟨rfl, by decide⟩

/-- C7 (amended): a failed schema fetch is surfaced by `Dashboard` as a
blocking error view and the main dashboard never renders without a
nonempty-table schema, but a successfully loaded zero-table schema is shown
as the `"No tables found"` empty state rather than an error. -/
theorem dashboard_schema_error_handling (s : Option DatabaseSchema)
    (sch : DatabaseSchema) (hs : sch.tables = []) :
    dashboardRender false true s = RenderState.errorView ∧
    dashboardRender false false (some sch) = RenderState.emptyNoTables ∧
    ∀ (l e : Bool) (s' : Option DatabaseSchema),
      dashboardRender l e s' = RenderState.mainView →
      l = false ∧ e = false ∧ ∃ sch', s' = some sch' ∧ sch'.tables ≠ [] := by
  refine ⟨rfl, by simp [dashboardRender, hs], ?_⟩
  intro l e s' hmain
  unfold dashboardRender at hmain
  cases l with
  | true => cases hmain
  | false =>
    cases e with
    | true => cases hmain
    | false =>
      cases s' with
      | none => cases hmain
      | some sch' =>
        refine ⟨rfl, rfl, sch', rfl, ?_⟩
        by_cases hlen : sch'.tables.length = 0
        · simp only [if_pos hlen] at hmain; cases hmain
        · exact fun hnil => hlen (by rw [hnil]; rfl)

/-- Concrete instance of `dashboard_schema_error_handling` at the empty
schema. -/
theorem dashboard_schema_error_handling_witness :
    dashboardRender false true none = RenderState.errorView ∧
    dashboardRender false false (some ⟨[], []⟩) = RenderState.emptyNoTables ∧
    ∀ (l e : Bool) (s' : Option DatabaseSchema),
      dashboardRender l e s' = RenderState.mainView →
      l = false ∧ e = false ∧ ∃ sch', s' = some sch' ∧ sch'.tables ≠ [] :=
  dashboard_schema_error_handling none ⟨[], []⟩ (by rfl)

theorem insertLe_perm {α : Type} (le : α → α → Bool) (x : α) (l : List α) :
    (insertLe le x l).Perm (x :: l) := by
  induction l with
  | nil => exact List.Perm.refl _
  | cons y ys ih =>
    unfold insertLe
    by_cases h : le x y = true
    · rw [if_pos h]
    · rw [if_neg h]
      exact (ih.cons y).trans (List.Perm.swap x y ys)

theorem sortByLe_perm {α : Type} (le : α → α → Bool) (l : List α) :
    (sortByLe le l).Perm l := by
  induction l with
  | nil => exact List.Perm.refl _
  | cons x xs ih =>
    unfold sortByLe
    exact (insertLe_perm le x (sortByLe le xs)).trans (ih.cons x)

theorem pages_disjoint {α : Type} {l : List α} (hnd : l.Nodup) (a n b m : Nat)
    (hab : a + n ≤ b) (x : α) (hx1 : x ∈ (l.drop a).take n)
    (hx2 : x ∈ (l.drop b).take m) : False := by
  have h1 : x ∈ l.take (a + n) := by
    have heq : (l.take (a + n)).drop a = (l.drop a).take n := by
      rw [List.drop_take]
      congr 1
      omega
    exact (List.drop_sublist a (l.take (a + n))).subset (heq ▸ hx1)
  have h2 : x ∈ l.drop (a + n) := by
    have heq : l.drop b = (l.drop (a + n)).drop (b - (a + n)) := by
      rw [List.drop_drop]
      congr 1
      omega
    exact (List.drop_sublist _ _).subset
      (heq ▸ (List.take_sublist m (l.drop b)).subset hx2)
  have hsplit : (l.take (a + n) ++ l.drop (a + n)).Nodup := by
    rw [List.take_append_drop]
    exact hnd
  exact (List.nodup_append.mp hsplit).2.2 h1 h2

/-- C5: pagination contract of `execute`: with exactly 120 rows matching the
predicate and requested limit 50, offsets 0, 50 and 100 return 50, 50 and 20
rows respectively, the three row sets are pairwise disjoint, every response
reports `total = 120`, and in general a page never exceeds the requested
limit while `total` reflects the full filtered set regardless of the
pagination window. -/
theorem execute_pagination_contract (schema : DatabaseSchema) (db : Database)
    (target : String) (filters : List ColumnFilter) (sort : Option SortConfig)
    (maxLimit : Nat) (p : QueryPred)
    (hp : build_predicate schema target filters = Except.ok p)
    (hnd : (Database.getTable db target).Nodup)
    (hcap : 50 ≤ maxLimit)
    (h120 : ((Database.getTable db target).filter
      (fun r => evalPred db r p)).length = 120) :
    ∃ r0 r1 r2 : QueryResult,
      execute schema db target filters sort 0 50 maxLimit = Except.ok r0 ∧
      execute schema db target filters sort 50 50 maxLimit = Except.ok r1 ∧
      execute schema db target filters sort 100 50 maxLimit = Except.ok r2 ∧
      r0.rows.length = 50 ∧ r1.rows.length = 50 ∧ r2.rows.length = 20 ∧
      (∀ x, x ∈ r0.rows → x ∉ r1.rows) ∧
      (∀ x, x ∈ r0.rows → x ∉ r2.rows) ∧
      (∀ x, x ∈ r1.rows → x ∉ r2.rows) ∧
      r0.total = 120 ∧ r1.total = 120 ∧ r2.total = 120 ∧
      ∀ (off lim : Nat) (res : QueryResult),
        execute schema db target filters sort off lim maxLimit = Except.ok res →
        res.rows.length ≤ lim ∧ res.total = 120 := by
  have hperm : (sortByLe (rowLe schema target sort)
      ((Database.getTable db target).filter (fun r => evalPred db r p))).Perm
      ((Database.getTable db target).filter (fun r => evalPred db r p)) :=
    sortByLe_perm _ _
  have hslen : (sortByLe (rowLe schema target sort)
      ((Database.getTable db target).filter (fun r => evalPred db r p))).length = 120 := by
    rw [hperm.length_eq]
    exact h120
  have hsnd : (sortByLe (rowLe schema target sort)
      ((Database.getTable db target).filter (fun r => evalPred db r p))).Nodup :=
    hperm.nodup_iff.mpr (hnd.filter _)
  have hmin : min 50 maxLimit = 50 := Nat.min_eq_left hcap
  have hexec : ∀ off lim, execute schema db target filters sort off lim maxLimit =
      Except.ok ⟨((sortByLe (rowLe schema target sort)
          ((Database.getTable db target).filter (fun r => evalPred db r p))).drop
            off).take (min lim maxLimit),
        ((Database.getTable db target).filter (fun r => evalPred db r p)).length,
        off, min lim maxLimit⟩ := by
    intro off lim
    simp only [execute, hp]
  refine ⟨_, _, _, hexec 0 50, hexec 50 50, hexec 100 50, ?_, ?_, ?_, ?_, ?_, ?_,
    h120, h120, h120, ?_⟩
  · simp only [List.drop_zero, List.length_take, hslen, hmin]
    decide
  · simp only [List.length_take, List.length_drop, hslen, hmin]
    decide
  · simp only [List.length_take, List.length_drop, hslen, hmin]
    decide
  · intro x hx0 hx1
    rw [hmin] at hx0 hx1
    rw [List.drop_zero] at hx0
    exact pages_disjoint hsnd 0 50 50 50 (by omega) x
      (by simpa using hx0) hx1
  · intro x hx0 hx2
    rw [hmin] at hx0 hx2
    rw [List.drop_zero] at hx0
    exact pages_disjoint hsnd 0 50 100 50 (by omega) x
      (by simpa using hx0) hx2
  · intro x hx1 hx2
    rw [hmin] at hx1 hx2
    exact pages_disjoint hsnd 50 50 100 50 (by omega) x hx1 hx2
  · intro off lim res hres
    rw [hexec off lim] at hres
    cases hres
    constructor
    · exact le_trans (List.length_take_le _ _) (Nat.min_le_left _ _)
    · exact h120

set_option maxRecDepth 4000 in
/-- Concrete instance of `execute_pagination_contract`: the 120-row `items`
table paged with limit 50 at offsets 0, 50 and 100. -/
theorem execute_pagination_witness :
    ∃ r0 r1 r2 : QueryResult,
      execute itemsSchema itemsDb "items" [] none 0 50 500 = Except.ok r0 ∧
      execute itemsSchema itemsDb "items" [] none 50 50 500 = Except.ok r1 ∧
      execute itemsSchema itemsDb "items" [] none 100 50 500 = Except.ok r2 ∧
      r0.rows.length = 50 ∧ r1.rows.length = 50 ∧ r2.rows.length = 20 ∧
      (∀ x, x ∈ r0.rows → x ∉ r1.rows) ∧
      (∀ x, x ∈ r0.rows → x ∉ r2.rows) ∧
      (∀ x, x ∈ r1.rows → x ∉ r2.rows) ∧
      r0.total = 120 ∧ r1.total = 120 ∧ r2.total = 120 ∧
      ∀ (off lim : Nat) (res : QueryResult),
        execute itemsSchema itemsDb "items" [] none off lim 500 = Except.ok res →
        res.rows.length ≤ lim ∧ res.total = 120 :=
  execute_pagination_contract itemsSchema itemsDb "items" [] none 500
    QueryPred.tautology (by rfl) (by decide) (by decide) (by decide)

theorem splitSep_cons (sep c : Char) (cs : List Char) (p : List Char)
    (ps : List (List Char)) (h : splitSep sep cs = p :: ps) :
    splitSep sep (c :: cs) =
      if c = sep then [] :: p :: ps else (c :: p) :: ps := by
  unfold splitSep
  rw [h]

theorem splitSep_ne_nil (sep : Char) (s : List Char) : splitSep sep s ≠ [] := by
  induction s with
  | nil => simp [splitSep]
  | cons c cs ih =>
    cases h : splitSep sep cs with
    | nil => exact absurd h ih
    | cons p ps =>
      rw [splitSep_cons sep c cs p ps h]
      by_cases hc : c = sep <;> simp [hc]

theorem sep_not_mem_splitSep (sep : Char) (s : List Char) :
    ∀ piece ∈ splitSep sep s, sep ∉ piece := by
  induction s with
  | nil =>
    intro piece hp
    simp only [splitSep, List.mem_singleton] at hp
    subst hp
    simp
  | cons c cs ih =>
    intro piece hp
    cases h : splitSep sep cs with
    | nil => exact absurd h (splitSep_ne_nil sep cs)
    | cons p ps =>
      rw [splitSep_cons sep c cs p ps h] at hp
      by_cases hc : c = sep
      · rw [if_pos hc] at hp
        rcases List.mem_cons.mp hp with rfl | hp2
        · simp
        · exact ih piece (h ▸ hp2)
      · rw [if_neg hc] at hp
        rcases List.mem_cons.mp hp with rfl | hp2
        · intro hmem
          rcases List.mem_cons.mp hmem with heq | hmem2
          · exact hc heq.symm
          · exact ih p (h ▸ List.mem_cons_self p ps) hmem2
        · exact ih piece (h ▸ List.mem_cons.mpr (Or.inr hp2))

theorem splitSep_no_sep (sep : Char) (x : List Char) (hx : sep ∉ x) :
    splitSep sep x = [x] := by
  induction x with
  | nil => rfl
  | cons c cs ih =>
    have hc : ¬ c = sep := fun h => hx (h ▸ List.mem_cons_self c cs)
    have hcs : sep ∉ cs := fun h => hx (List.mem_cons.mpr (Or.inr h))
    rw [splitSep_cons sep c cs cs [] (ih hcs), if_neg hc]

theorem splitSep_append (sep : Char) (x rest : List Char) (hx : sep ∉ x) :
    splitSep sep (x ++ sep :: rest) = x :: splitSep sep rest := by
  induction x with
  | nil =>
    simp only [List.nil_append]
    cases h : splitSep sep rest with
    | nil => exact absurd h (splitSep_ne_nil sep rest)
    | cons p ps =>
      rw [splitSep_cons sep sep rest p ps h, if_pos rfl]
  | cons c cs ih =>
    have hc : ¬ c = sep := fun h => hx (h ▸ List.mem_cons_self c cs)
    have hcs : sep ∉ cs := fun h => hx (List.mem_cons.mpr (Or.inr h))
    have hih := ih hcs
    cases h : splitSep sep rest with
    | nil => exact absurd h (splitSep_ne_nil sep rest)
    | cons p ps =>
      rw [h] at hih
      simp only [List.cons_append]
      rw [splitSep_cons sep c (cs ++ sep :: rest) cs (p :: ps) hih, if_neg hc]

theorem splitSep_joinSep (sep : Char) (l : List (List Char)) (hne : l ≠ [])
    (hfree : ∀ x ∈ l, sep ∉ x) :
    splitSep sep (joinSep sep l) = l := by
  induction l with
  | nil => exact absurd rfl hne
  | cons x xs ih =>
    cases xs with
    | nil =>
      show splitSep sep (joinSep sep [x]) = [x]
      exact splitSep_no_sep sep x (hfree x (List.mem_cons_self x []))
    | cons y ys =>
      have hj : joinSep sep (x :: y :: ys) = x ++ sep :: joinSep sep (y :: ys) := rfl
      rw [hj, splitSep_append sep x _ (hfree x (List.mem_cons_self x _))]
      rw [ih (by simp) (fun z hz => hfree z (List.mem_cons.mpr (Or.inr hz)))]

theorem mem_setDedup {α : Type} [DecidableEq α] (l : List α) (x : α) :
    x ∈ setDedup l ↔ x ∈ l := by
  induction l with
  | nil => simp [setDedup]
  | cons y ys ih =>
    simp only [setDedup, List.mem_cons, List.mem_filter]
    constructor
    · rintro (rfl | ⟨hmem, _⟩)
      · exact Or.inl rfl
      · exact Or.inr (ih.mp hmem)
    · rintro (rfl | hmem)
      · exact Or.inl rfl
      · by_cases hxy : x = y
        · exact Or.inl hxy
        · exact Or.inr ⟨ih.mpr hmem, by simpa using hxy⟩

theorem nodup_setDedup {α : Type} [DecidableEq α] (l : List α) :
    (setDedup l).Nodup := by
  induction l with
  | nil => simp [setDedup]
  | cons y ys ih =>
    simp only [setDedup, List.nodup_cons]
    refine ⟨?_, ih.filter _⟩
    intro hmem
    have := (List.mem_filter.mp hmem).2
    simp at this

theorem visibleTables_spec (st : Option (List Char)) :
    (visibleTables st).Nodup ∧ ∀ x ∈ visibleTables st, x ≠ [] ∧ ',' ∉ x := by
  cases st with
  | none =>
    constructor
    · simp [visibleTables]
    · intro x hx
      simp [visibleTables] at hx
  | some s =>
    constructor
    · exact nodup_setDedup _
    · intro x hx
      simp only [visibleTables] at hx
      rw [mem_setDedup] at hx
      have hm := List.mem_filter.mp hx
      refine ⟨by simpa using hm.2, sep_not_mem_splitSep ',' s x hm.1⟩

theorem visibleTables_serializeTables (next : List (List Char))
    (hfree : ∀ x ∈ next, ',' ∉ x) (x : List Char) :
    x ∈ visibleTables (serializeTables next) ↔ x ∈ next ∧ x ≠ [] := by
  cases next with
  | nil => simp [serializeTables, visibleTables]
  | cons y ys =>
    have hperm := sortByLe_perm lexLe (y :: ys)
    have hsne : sortByLe lexLe (y :: ys) ≠ [] := by
      intro h0
      have hl := hperm.length_eq
      rw [h0] at hl
      simp at hl
    have hsfree : ∀ z ∈ sortByLe lexLe (y :: ys), ',' ∉ z :=
      fun z hz => hfree z (hperm.subset hz)
    show x ∈ visibleTables (some (joinSep ',' (sortByLe lexLe (y :: ys)))) ↔ _
    simp only [visibleTables]
    rw [splitSep_joinSep ',' _ hsne hsfree, mem_setDedup, List.mem_filter]
    constructor
    · rintro ⟨hmem, hne⟩
      exact ⟨hperm.subset hmem, by simpa using hne⟩
    · rintro ⟨hmem, hne⟩
      exact ⟨hperm.mem_iff.mpr hmem, by simpa using hne⟩

theorem toggleTable_eq (st : Option (List Char)) (name : List Char) :
    toggleTable st name = serializeTables
      (if name ∈ visibleTables st then (visibleTables st).erase name
       else visibleTables st ++ [name]) := rfl

theorem visibleTables_toggle (st : Option (List Char)) (name : List Char)
    (hname : ',' ∉ name) (x : List Char) :
    x ∈ visibleTables (toggleTable st name) ↔
      ((name ∈ visibleTables st ∧ x ∈ visibleTables st ∧ x ≠ name) ∨
       (name ∉ visibleTables st ∧
         (x ∈ visibleTables st ∨ (x = name ∧ name ≠ [])))) := by
  obtain ⟨hnd, hspec⟩ := visibleTables_spec st
  rw [toggleTable_eq]
  by_cases hmem : name ∈ visibleTables st
  · rw [if_pos hmem]
    have hfree : ∀ z ∈ (visibleTables st).erase name, ',' ∉ z :=
      fun z hz => (hspec z (List.erase_subset _ _ hz)).2
    rw [visibleTables_serializeTables _ hfree, hnd.mem_erase_iff]
    constructor
    · rintro ⟨⟨hxname, hxcur⟩, _⟩
      exact Or.inl ⟨hmem, hxcur, hxname⟩
    · rintro (⟨_, hxcur, hxname⟩ | ⟨habs, _⟩)
      · exact ⟨⟨hxname, hxcur⟩, (hspec x hxcur).1⟩
      · exact absurd hmem habs
  · rw [if_neg hmem]
    have hfree : ∀ z ∈ visibleTables st ++ [name], ',' ∉ z := by
      intro z hz
      rcases List.mem_append.mp hz with h1 | h2
      · exact (hspec z h1).2
      · rw [List.mem_singleton] at h2
        subst h2
        exact hname
    rw [visibleTables_serializeTables _ hfree, List.mem_append, List.mem_singleton]
    constructor
    · rintro ⟨hx | hxeq, hxne⟩
      · exact Or.inr ⟨hmem, Or.inl hx⟩
      · exact Or.inr ⟨hmem, Or.inr ⟨hxeq, hxeq ▸ hxne⟩⟩
    · rintro (⟨habs, _, _⟩ | ⟨_, hx | ⟨hxeq, hne⟩⟩)
      · exact absurd habs hmem
      · exact ⟨Or.inl hx, (hspec x hx).1⟩
      · exact ⟨Or.inr hxeq, hxeq ▸ hne⟩

/-- C9 counterexample: toggling the comma-containing table name `"a,b"` twice
from an empty URL leaves `"a"` visible, so `toggleTable` is not an involution
on the visible-table set for arbitrary names. -/
theorem toggleTable_comma_counterexample :
    ['a'] ∈ visibleTables
      (toggleTable (toggleTable none ['a', ',', 'b']) ['a', ',', 'b']) ∧
    ['a'] ∉ visibleTables none := by decide

/-- C9 (amended): for every URL state and every table name containing no
comma, applying `toggleTable` twice with that name yields exactly the
visible-table set present before the first call. -/
theorem toggleTable_involution (st : Option (List Char)) (name : List Char)
    (hname : ',' ∉ name) :
    ∀ x, x ∈ visibleTables (toggleTable (toggleTable st name) name) ↔
      x ∈ visibleTables st := by
  intro x
  obtain ⟨hnd, hspec⟩ := visibleTables_spec st
  have hvt := visibleTables_toggle st name hname
  rw [visibleTables_toggle (toggleTable st name) name hname x, hvt x, hvt name]
  by_cases hmem : name ∈ visibleTables st
  · have hNIn : ¬ ((name ∈ visibleTables st ∧ name ∈ visibleTables st ∧ name ≠ name) ∨
        (name ∉ visibleTables st ∧
          (name ∈ visibleTables st ∨ (name = name ∧ name ≠ [])))) := by
      rintro (⟨_, _, hcon⟩ | ⟨hcon, _⟩)
      · exact hcon rfl
      · exact hcon hmem
    constructor
    · rintro (⟨hA, _, _⟩ | ⟨_, hrest⟩)
      · exact absurd hA hNIn
      · rcases hrest with hX | ⟨hxeq, _⟩
        · rcases hX with ⟨_, hx, _⟩ | ⟨hcon, _⟩
          · exact hx
          · exact absurd hmem hcon
        · exact hxeq ▸ hmem
    · intro hx
      refine Or.inr ⟨hNIn, ?_⟩
      by_cases hxn : x = name
      · exact Or.inr ⟨hxn, (hspec name hmem).1⟩
      · exact Or.inl (Or.inl ⟨hmem, hx, hxn⟩)
  · by_cases hnil : name = []
    · have hNIn : ¬ ((name ∈ visibleTables st ∧ name ∈ visibleTables st ∧ name ≠ name) ∨
          (name ∉ visibleTables st ∧
            (name ∈ visibleTables st ∨ (name = name ∧ name ≠ [])))) := by
        rintro (⟨hcon, _⟩ | ⟨_, hin | ⟨_, hcon⟩⟩)
        · exact hmem hcon
        · exact hmem hin
        · exact hcon hnil
      constructor
      · rintro (⟨hA, _, _⟩ | ⟨_, hrest⟩)
        · exact absurd hA hNIn
        · rcases hrest with hX | ⟨_, hcon⟩
          · rcases hX with ⟨hcon, _⟩ | ⟨_, hx | ⟨_, hcon⟩⟩
            · exact absurd hcon hmem
            · exact hx
            · exact absurd hnil hcon
          · exact absurd hnil hcon
      · intro hx
        exact Or.inr ⟨hNIn, Or.inl (Or.inr ⟨hmem, Or.inl hx⟩)⟩
    · have hIn : ((name ∈ visibleTables st ∧ name ∈ visibleTables st ∧ name ≠ name) ∨
          (name ∉ visibleTables st ∧
            (name ∈ visibleTables st ∨ (name = name ∧ name ≠ [])))) :=
        Or.inr ⟨hmem, Or.inr ⟨rfl, hnil⟩⟩
      constructor
      · rintro (⟨_, hX, hxn⟩ | ⟨hcon, _⟩)
        · rcases hX with ⟨hcon, _⟩ | ⟨_, hx | ⟨hxeq, _⟩⟩
          · exact absurd hcon hmem
          · exact hx
          · exact absurd hxeq hxn
        · exact absurd hIn hcon
      · intro hx
        have hxn : x ≠ name := fun h => hmem (h ▸ hx)
        exact Or.inl ⟨hIn, Or.inr ⟨hmem, Or.inl hx⟩, hxn⟩

/-- Concrete instance of `toggleTable_involution`: after toggling `"c"` twice
on the URL state `"b,a"`, the table `"a"` is visible exactly as before. -/
theorem toggleTable_involution_witness :
    ['a'] ∈ visibleTables
        (toggleTable (toggleTable (some ['b', ',', 'a']) ['c']) ['c']) ↔
      ['a'] ∈ visibleTables (some ['b', ',', 'a']) :=
  toggleTable_involution (some ['b', ',', 'a']) ['c'] (by decide) ['a']

theorem isWalk_append_edge {g : List Edge} {src t : String} {p : List Edge} {e : Edge} :
    IsWalk g src (p ++ [e]) t ↔
      IsWalk g src p e.from_table ∧ e ∈ g ∧ e.to_table = t := by
  induction p generalizing src with
  | nil =>
    simp only [List.nil_append]
    constructor
    · rintro ⟨hg, hf, ht⟩
      have ht' : e.to_table = t := ht
      have hf' : src = e.from_table := hf.symm
      exact ⟨hf', hg, ht'⟩
    · rintro ⟨hf, hg, ht⟩
      have hf' : e.from_table = src := (show src = e.from_table from hf).symm
      exact ⟨hg, hf', ht⟩
  | cons e0 p ih =>
    simp only [List.cons_append]
    constructor
    · rintro ⟨hg0, hf0, hw⟩
      obtain ⟨hw', hg, ht⟩ := ih.mp hw
      exact ⟨⟨hg0, hf0, hw'⟩, hg, ht⟩
    · rintro ⟨⟨hg0, hf0, hw'⟩, hg, ht⟩
      exact ⟨hg0, hf0, ih.mpr ⟨hw', hg, ht⟩⟩

theorem isDist_unique {g : List Edge} {src t : String} {k j : Nat}
    (h1 : IsDist g src t k) (h2 : IsDist g src t j) : k = j :=
  Nat.le_antisymm (h1.2 j h2.1) (h2.2 k h1.1)

theorem exists_isDist {g : List Edge} {src t : String} {j : Nat}
    (h : WalkLen g src t j) : ∃ d, IsDist g src t d ∧ d ≤ j := by
  classical
  have hP : ∃ n, WalkLen g src t n := ⟨j, h⟩
  exact ⟨Nat.find hP, ⟨Nat.find_spec hP, fun i hi => Nat.find_min' hP hi⟩,
    Nat.find_min' hP h⟩

theorem isDist_zero (g : List Edge) (src : String) : IsDist g src src 0 :=
  ⟨⟨[], rfl, rfl⟩, fun j _ => Nat.zero_le j⟩

theorem walkLen_zero {g : List Edge} {src t : String} (h : WalkLen g src t 0) :
    src = t := by
  obtain ⟨p, hw, hl⟩ := h
  cases p with
  | nil => exact hw
  | cons e p => cases hl

theorem isDist_succ_decompose {g : List Edge} {src n : String} {k : Nat}
    (h : IsDist g src n (k + 1)) :
    ∃ (m : String) (e : Edge), IsDist g src m k ∧ e ∈ g ∧
      e.from_table = m ∧ e.to_table = n := by
  obtain ⟨⟨p, hw, hl⟩, hmin⟩ := h
  rcases List.eq_nil_or_concat p with rfl | ⟨p', e, rfl⟩
  · cases hl
  · rw [List.concat_eq_append] at hw hl
    obtain ⟨hw', hg, ht⟩ := isWalk_append_edge.mp hw
    have hl' : p'.length = k := by
      simp only [List.length_append, List.length_singleton] at hl
      omega
    refine ⟨e.from_table, e, ⟨⟨p', hw', hl'⟩, ?_⟩, hg, rfl, ht⟩
    intro j hj
    obtain ⟨q, hqw, hql⟩ := hj
    have hwalk : WalkLen g src n (j + 1) :=
      ⟨q ++ [e], isWalk_append_edge.mpr ⟨hqw, hg, ht⟩, by simp [hql]⟩
    have := hmin (j + 1) hwalk
    omega

theorem expandNode_sound (visited : List String) (p : List Edge) :
    ∀ (es : List Edge) (acc : List (String × List Edge)) (q : String × List Edge),
      q ∈ expandNode visited p es acc →
      q ∈ acc ∨ ∃ e ∈ es, q = (e.to_table, p ++ [e]) ∧ e.to_table ∉ visited := by
  intro es
  induction es with
  | nil =>
    intro acc q hq
    exact Or.inl hq
  | cons e es ih =>
    intro acc q hq
    unfold expandNode at hq
    by_cases hcond : (e.to_table ∈ visited ∨ acc.any (fun r => r.1 == e.to_table))
    · rw [if_pos hcond] at hq
      rcases ih _ q hq with h | ⟨e', he', heq, hnv⟩
      · exact Or.inl h
      · exact Or.inr ⟨e', List.mem_cons.mpr (Or.inr he'), heq, hnv⟩
    · rw [if_neg hcond] at hq
      rcases ih _ q hq with h | ⟨e', he', heq, hnv⟩
      · rcases List.mem_append.mp h with h1 | h2
        · exact Or.inl h1
        · rw [List.mem_singleton] at h2
          refine Or.inr ⟨e, List.mem_cons_self e es, h2, fun hv => hcond (Or.inl hv)⟩
      · exact Or.inr ⟨e', List.mem_cons.mpr (Or.inr he'), heq, hnv⟩

theorem expandNode_mono (visited : List String) (p : List Edge) :
    ∀ (es : List Edge) (acc : List (String × List Edge)),
      acc ⊆ expandNode visited p es acc := by
  intro es
  induction es with
  | nil => intro acc; exact fun q hq => hq
  | cons e es ih =>
    intro acc
    unfold expandNode
    by_cases hcond : (e.to_table ∈ visited ∨ acc.any (fun r => r.1 == e.to_table))
    · rw [if_pos hcond]
      exact ih acc
    · rw [if_neg hcond]
      exact fun q hq => ih _ (List.mem_append.mpr (Or.inl hq))

theorem expandNode_complete (visited : List String) (p : List Edge) :
    ∀ (es : List Edge) (acc : List (String × List Edge)) (e : Edge), e ∈ es →
      e.to_table ∉ visited →
      ∃ p', (e.to_table, p') ∈ expandNode visited p es acc := by
  intro es
  induction es with
  | nil =>
    intro acc e he
    cases he
  | cons e0 es ih =>
    intro acc e he hnv
    rcases List.mem_cons.mp he with rfl | hmem
    · unfold expandNode
      by_cases hcond : (e.to_table ∈ visited ∨ acc.any (fun r => r.1 == e.to_table))
      · rw [if_pos hcond]
        rcases hcond with hv | hany
        · exact absurd hv hnv
        · obtain ⟨r, hr, hrq⟩ := List.any_eq_true.mp hany
          have hr1 : r.1 = e.to_table := by simpa using hrq
          refine ⟨r.2, expandNode_mono visited p es acc ?_⟩
          rw [← hr1]
          exact hr
      · rw [if_neg hcond]
        exact ⟨p ++ [e], expandNode_mono visited p es _
          (List.mem_append.mpr (Or.inr (List.mem_singleton.mpr rfl)))⟩
    · unfold expandNode
      by_cases hcond : (e0.to_table ∈ visited ∨ acc.any (fun r => r.1 == e0.to_table))
      · rw [if_pos hcond]
        exact ih acc e hmem hnv
      · rw [if_neg hcond]
        exact ih _ e hmem hnv

theorem expandFrontier_sound (g : List Edge) (visited : List String) :
    ∀ (fr : List (String × List Edge)) (acc : List (String × List Edge))
      (q : String × List Edge), q ∈ expandFrontier g visited fr acc →
      q ∈ acc ∨ ∃ n pp, (n, pp) ∈ fr ∧ ∃ e, e ∈ adjEdges g n ∧
        q = (e.to_table, pp ++ [e]) ∧ e.to_table ∉ visited := by
  intro fr
  induction fr with
  | nil =>
    intro acc q hq
    exact Or.inl hq
  | cons hd fr ih =>
    intro acc q hq
    obtain ⟨n1, p1⟩ := hd
    unfold expandFrontier at hq
    rcases ih _ q hq with h | ⟨n, pp, hmem, e, he, heq, hnv⟩
    · rcases expandNode_sound visited p1 _ _ q h with h1 | ⟨e, he, heq, hnv⟩
      · exact Or.inl h1
      · exact Or.inr ⟨n1, p1, List.mem_cons_self _ _, e, he, heq, hnv⟩
    · exact Or.inr ⟨n, pp, List.mem_cons.mpr (Or.inr hmem), e, he, heq, hnv⟩

theorem expandFrontier_mono (g : List Edge) (visited : List String) :
    ∀ (fr : List (String × List Edge)) (acc : List (String × List Edge)),
      acc ⊆ expandFrontier g visited fr acc := by
  intro fr
  induction fr with
  | nil => intro acc q hq; exact hq
  | cons hd fr ih =>
    intro acc q hq
    obtain ⟨n1, p1⟩ := hd
    unfold expandFrontier
    exact ih _ (expandNode_mono visited p1 _ acc hq)

theorem expandFrontier_complete (g : List Edge) (visited : List String) :
    ∀ (fr : List (String × List Edge)) (acc : List (String × List Edge))
      (n0 : String) (p0 : List Edge) (e : Edge), (n0, p0) ∈ fr →
      e ∈ adjEdges g n0 → e.to_table ∉ visited →
      ∃ p', (e.to_table, p') ∈ expandFrontier g visited fr acc := by
  intro fr
  induction fr with
  | nil =>
    intro acc n0 p0 e hmem
    cases hmem
  | cons hd fr ih =>
    intro acc n0 p0 e hmem he hnv
    obtain ⟨n1, p1⟩ := hd
    rcases List.mem_cons.mp hmem with heq | hmem2
    · have hn : n0 = n1 := congrArg Prod.fst heq
      have hp : p0 = p1 := congrArg Prod.snd heq
      subst hn
      subst hp
      obtain ⟨p', hp'⟩ := expandNode_complete visited p0 (adjEdges g n0) acc e he hnv
      exact ⟨p', expandFrontier_mono g visited fr _ hp'⟩
    · exact ih _ n0 p0 e hmem2 he hnv

theorem adjEdges_spec {g : List Edge} {n : String} {e : Edge}
    (he : e ∈ adjEdges g n) : e ∈ g ∧ e.from_table = n := by
  have := List.mem_filter.mp he
  exact ⟨this.1, by simpa using this.2⟩

theorem bfsInv_step {g : List Edge} {src : String} {k : Nat} {visited : List String}
    {frontier : List (String × List Edge)} (inv : BfsInv g src k visited frontier) :
    BfsInv g src (k + 1)
      (visited ++ (expandFrontier g visited frontier []).map Prod.fst)
      (expandFrontier g visited frontier []) := by
  have hsound : ∀ q ∈ expandFrontier g visited frontier [],
      ∃ n pp, (n, pp) ∈ frontier ∧ ∃ e, e ∈ adjEdges g n ∧
        q = (e.to_table, pp ++ [e]) ∧ e.to_table ∉ visited := by
    intro q hq
    rcases expandFrontier_sound g visited frontier [] q hq with h | h
    · cases h
    · exact h
  -- every new entry carries a walk of length k+1
  have hwalk_new : ∀ q ∈ expandFrontier g visited frontier [],
      IsWalk g src q.2 q.1 ∧ q.2.length = k + 1 := by
    intro q hq
    obtain ⟨n, pp, hmem, e, he, heq, _⟩ := hsound q hq
    obtain ⟨hg, hfrom⟩ := adjEdges_spec he
    obtain ⟨hw, hlen⟩ := inv.fwalk (n, pp) hmem
    subst heq
    refine ⟨isWalk_append_edge.mpr ⟨?_, hg, rfl⟩, by simp [hlen]⟩
    rw [hfrom]
    exact hw
  -- every new entry's table lies at distance exactly k+1
  have hq_dist : ∀ q ∈ expandFrontier g visited frontier [],
      IsDist g src q.1 (k + 1) := by
    intro q hq
    obtain ⟨n, pp, hmem, e, he, heq, hnv⟩ := hsound q hq
    obtain ⟨hw, hlen⟩ := hwalk_new q hq
    have hwl : WalkLen g src q.1 (k + 1) := ⟨q.2, hw, hlen⟩
    obtain ⟨d, hd, hdle⟩ := exists_isDist hwl
    have hnott : ¬ ∃ j ≤ k, IsDist g src q.1 j := by
      intro hex
      have : q.1 ∈ visited := (inv.vis q.1).mpr hex
      rw [heq] at this
      exact hnv this
    have hdk : d = k + 1 := by
      by_contra hne
      exact hnott ⟨d, by omega, hd⟩
    rw [← hdk]
    exact hd
  -- the new frontier's tables are exactly those at distance k+1
  have hfnodes : ∀ n, (∃ p, (n, p) ∈ expandFrontier g visited frontier []) ↔
      IsDist g src n (k + 1) := by
    intro n
    constructor
    · rintro ⟨p, hp⟩
      exact hq_dist (n, p) hp
    · intro hd
      obtain ⟨m, e, hdm, hg, hfrom, hto⟩ := isDist_succ_decompose hd
      obtain ⟨pm, hpm⟩ := (inv.fnodes m).mpr hdm
      have he : e ∈ adjEdges g m := List.mem_filter.mpr ⟨hg, by simp [hfrom]⟩
      have hnv : e.to_table ∉ visited := by
        intro hv
        obtain ⟨j, hjle, hdj⟩ := (inv.vis e.to_table).mp hv
        rw [hto] at hdj
        have := isDist_unique hd hdj
        omega
      obtain ⟨p', hp'⟩ := expandFrontier_complete g visited frontier [] m pm e hpm he hnv
      rw [hto] at hp'
      exact ⟨p', hp'⟩
  refine ⟨hwalk_new, ?_, ?_, ?_, hfnodes⟩
  · -- paths remain duplicate-free
    intro q hq
    obtain ⟨n, pp, hmem, e, he, heq, _⟩ := hsound q hq
    have hnd := inv.fnodup (n, pp) hmem
    have hdq := hq_dist q hq
    have hq1 : q.1 = e.to_table := by rw [heq]
    have hpath : pathNodes src q.2 = pathNodes src pp ++ [e.to_table] := by
      rw [heq]
      simp [pathNodes]
    rw [hpath, List.nodup_append]
    refine ⟨hnd, List.nodup_singleton _, ?_⟩
    intro z hz hz2
    rw [List.mem_singleton] at hz2
    subst hz2
    obtain ⟨i, hile, hdi⟩ := inv.fmemdist (n, pp) hmem e.to_table hz
    rw [← hq1] at hdi
    have := isDist_unique hdq hdi
    omega
  · -- every table on a stored path lies at distance at most k+1
    intro q hq z hz
    obtain ⟨n, pp, hmem, e, he, heq, _⟩ := hsound q hq
    have hpath : pathNodes src q.2 = pathNodes src pp ++ [e.to_table] := by
      rw [heq]
      simp [pathNodes]
    rw [hpath, List.mem_append, List.mem_singleton] at hz
    rcases hz with hz1 | rfl
    · obtain ⟨i, hile, hdi⟩ := inv.fmemdist (n, pp) hmem z hz1
      exact ⟨i, by omega, hdi⟩
    · have hq1 : q.1 = e.to_table := by rw [heq]
      refine ⟨k + 1, le_refl _, ?_⟩
      rw [← hq1]
      exact hq_dist q hq
  · -- the visited set becomes the tables at distance at most k+1
    intro n
    constructor
    · intro hn
      rcases List.mem_append.mp hn with h1 | h2
      · obtain ⟨j, hjle, hdj⟩ := (inv.vis n).mp h1
        exact ⟨j, by omega, hdj⟩
      · obtain ⟨q, hq, hq1⟩ := List.mem_map.mp h2
        refine ⟨k + 1, le_refl _, ?_⟩
        rw [← hq1]
        exact hq_dist q hq
    · rintro ⟨j, hjle, hdj⟩
      by_cases hjk : j ≤ k
      · exact List.mem_append.mpr (Or.inl ((inv.vis n).mpr ⟨j, hjk, hdj⟩))
      · have hj1 : j = k + 1 := by omega
        subst hj1
        obtain ⟨p, hp⟩ := (hfnodes n).mpr hdj
        exact List.mem_append.mpr (Or.inr (List.mem_map.mpr ⟨(n, p), hp, rfl⟩))

theorem bfsLoop_correct {g : List Edge} {src target : String} {p : List Edge} :
    ∀ (fuel k : Nat) (visited : List String) (frontier : List (String × List Edge)),
      BfsInv g src k visited frontier →
      bfsLoop g target fuel visited frontier = some p →
      IsWalk g src p target ∧ (pathNodes src p).Nodup ∧
        ∀ j, WalkLen g src target j → p.length ≤ j := by
  intro fuel
  induction fuel with
  | zero =>
    intro k visited frontier _ h
    cases h
  | succ fuel ih =>
    intro k visited frontier inv h
    unfold bfsLoop at h
    cases hfind : frontier.find? (fun q => q.1 == target) with
    | some q =>
      rw [hfind] at h
      simp only [] at h
      cases h
      have hqmem := List.mem_of_find?_eq_some hfind
      have hqt : q.1 = target := by simpa using List.find?_some hfind
      obtain ⟨hw, hlen⟩ := inv.fwalk q hqmem
      have hnd := inv.fnodup q hqmem
      have hdist : IsDist g src target k := by
        rw [← hqt]
        exact (inv.fnodes q.1).mp ⟨q.2, by rw [Prod.mk.eta]; exact hqmem⟩
      refine ⟨hqt ▸ hw, hnd, ?_⟩
      intro j hj
      rw [hlen]
      exact hdist.2 j hj
    | none =>
      rw [hfind] at h
      simp only [] at h
      cases hnext : expandFrontier g visited frontier [] with
      | nil =>
        rw [hnext] at h
        cases h
      | cons nx nxs =>
        rw [hnext] at h
        have inv' := bfsInv_step inv
        rw [hnext] at inv'
        exact ih (k + 1) _ _ inv' h

/-- C2: whenever `find_path(A, B)` returns a path, walking its edges from `A`
terminates exactly at `B`, the path visits no table twice, and its edge count
is minimal among all simple paths between `A` and `B` in the relationship
graph. -/
theorem find_path_correct (g : List Edge) (A B : String) (p : List Edge)
    (h : find_path g A B = some p) :
    IsWalk g A p B ∧ (pathNodes A p).Nodup ∧
      ∀ q, IsWalk g A q B → (pathNodes A q).Nodup → p.length ≤ q.length := by
  unfold find_path at h
  by_cases hab : (A == B) = true
  · rw [if_pos hab] at h
    have hAB : A = B := by simpa using hab
    cases h
    refine ⟨hAB, by simp [pathNodes], ?_⟩
    intro q _ _
    simp
  · rw [if_neg hab] at h
    have inv0 : BfsInv g A 0 [A] [(A, [])] := by
      refine ⟨?_, ?_, ?_, ?_, ?_⟩
      · intro q hq
        rw [List.mem_singleton] at hq
        subst hq
        exact ⟨rfl, rfl⟩
      · intro q hq
        rw [List.mem_singleton] at hq
        subst hq
        simp [pathNodes]
      · intro q hq z hz
        rw [List.mem_singleton] at hq
        subst hq
        simp only [pathNodes, List.map_nil, List.mem_singleton] at hz
        subst hz
        exact ⟨0, le_refl 0, isDist_zero g _⟩
      · intro n
        constructor
        · intro hn
          rw [List.mem_singleton] at hn
          subst hn
          exact ⟨0, le_refl 0, isDist_zero g _⟩
        · rintro ⟨j, hj, hd⟩
          have hj0 : j = 0 := Nat.le_zero.mp hj
          subst hj0
          have hA := walkLen_zero hd.1
          rw [List.mem_singleton]
          exact hA.symm
      · intro n
        constructor
        · rintro ⟨pp, hpp⟩
          rw [List.mem_singleton] at hpp
          have hn : n = A := congrArg Prod.fst hpp
          subst hn
          exact isDist_zero g n
        · intro hd
          have h0 := walkLen_zero hd.1
          refine ⟨[], ?_⟩
          rw [List.mem_singleton, ← h0]
    obtain ⟨hw, hnd, hmin⟩ := bfsLoop_correct (g.length + 1) 0 [A] [(A, [])] inv0 h
    exact ⟨hw, hnd, fun q hq _ => hmin q.length ⟨q, hq, rfl⟩⟩

/-- Concrete instance of `find_path_correct`: the one-hop path found from
`orders` to `users` in the scenario graph. -/
theorem find_path_correct_witness :
    IsWalk (buildGraph scenarioSchema) "orders"
      [⟨"orders", "users", [("user_id", "id")], false, "", []⟩] "users" ∧
    (pathNodes "orders"
      [⟨"orders", "users", [("user_id", "id")], false, "", []⟩]).Nodup ∧
    ∀ q, IsWalk (buildGraph scenarioSchema) "orders" q "users" →
      (pathNodes "orders" q).Nodup →
      ([(⟨"orders", "users", [("user_id", "id")], false, "", []⟩ : Edge)]).length ≤
        q.length :=
  find_path_correct (buildGraph scenarioSchema) "orders" "users"
    [⟨"orders", "users", [("user_id", "id")], false, "", []⟩] (by rfl)
